import Mathlib

/-!
Verification of the VQR/TURN RNG core
(`QRNG_True_Radnomness_Tests/vqr_turn_rng.py`).

Shallow embedding conventions:
* a Python `bytes` value is a `List Nat` whose elements are the byte values;
* the external hash/HMAC primitives (`hashlib.sha3_256`, `hmac` with SHA-256)
  are abstract function parameters; the only facts about them ever used are
  their digest lengths, made explicit as hypotheses or bundled fields;
* nondeterministic effects (`os.urandom`, `time.perf_counter_ns`,
  `time.time_ns`) are oracle parameters; a failing `os.urandom` read is an
  oracle returning `none`;
* machine integers are `Nat` with explicit `% 2 ^ w` where Python masks
  (`& ((1<<48)-1)`, `struct.pack("!Q", _)`).
-/

namespace EGQCC

/-- Python `bytes`: a list of byte values (each intended `< 256`). -/
abbrev Bytes := List Nat

/-- The 8 bits of a byte, most significant first: Python
`(b >> (7-k)) & 1` for `k = 0..7`. -/
def byteBits (b : Nat) : List Nat :=
  (List.range 8).map (fun k => b / 2 ^ (7 - k) % 2)

/-- Bit-level expansion of a byte string, as built by the `bits` loops of
`_von_neumann` and `_health_checks`. -/
def toBits (raw : Bytes) : List Nat :=
  (raw.map byteBits).flatten

/-- Big-endian 8-byte encoding, Python `struct.pack("!Q", x)` (the argument
is reduced `% 2 ^ 64`, which pack's range check makes implicit). -/
def packQ (x : Nat) : Bytes :=
  (List.range 8).map (fun i => x % 2 ^ 64 / 2 ^ (8 * (7 - i)) % 256)

/-- Big-endian interpretation of a byte string,
Python `struct.unpack("!Q", bs)[0]`. -/
def beUnpackQ (bs : Bytes) : Nat :=
  bs.foldl (fun a b => a * 256 + b) 0

/-- `_timing_jitter_bytes` from the source: fold `loops = max 2000 (n*200)`
masked clock deltas into the hash and return `digest()[:n_bytes]`.
`sha3` stands for the SHA3-256 digest over the accumulated update calls
(its real digest length is 32); `delta` is the timing oracle giving the
`i`-th loop's `now - last` value. -/
def timing_jitter_bytes (sha3 : Bytes → Bytes) (delta : Nat → Nat)
    (n_bytes : Nat) : Bytes :=
  let loops := max 2000 (n_bytes * 200)
  (sha3 (((List.range loops).map (fun i => packQ (delta i % 2 ^ 48))).flatten)).take n_bytes

/-! ## Von Neumann extractor (`_von_neumann`) -/

/-- The loop of `_von_neumann` over the bit list, carrying the packing
registers `acc`/`accLen`.  A lone unpaired final bit is ignored (the
source iterates `range(0, total_bits - 1, 2)`).  `acc * 2 + bit` is the
source's `(acc << 1) | bit` (bits are `0`/`1`), and the final flush
`acc * 2 ^ (8 - accLen)` is `acc << (8 - acc_len)`. -/
def vnLoop : List Nat → Nat → Nat → Bytes
  | [], acc, accLen => if accLen = 0 then [] else [acc * 2 ^ (8 - accLen)]
  | [_], acc, accLen => if accLen = 0 then [] else [acc * 2 ^ (8 - accLen)]
  | b1 :: b2 :: rest, acc, accLen =>
    if b1 = b2 then vnLoop rest acc accLen
    else
      let bit := if (b1, b2) = (0, 1) then 0 else 1
      if accLen + 1 = 8 then (acc * 2 + bit) :: vnLoop rest 0 0
      else vnLoop rest (acc * 2 + bit) (accLen + 1)

/-- `_von_neumann(bits)` from the source. -/
def von_neumann (bits : Bytes) : Bytes :=
  vnLoop (toBits bits) 0 0

/-- The emitted-bit stream of the Von Neumann extractor as the claim
describes it: read non-overlapping pairs, discard concordant ones, emit
`0` for `(0,1)` and `1` for `(1,0)`. -/
def vnEmit : List Nat → List Nat
  | b1 :: b2 :: rest =>
    (if b1 = b2 then [] else [if (b1, b2) = (0, 1) then 0 else 1]) ++ vnEmit rest
  | _ => []

/-- Packing of an emitted-bit stream into bytes, most significant bit
first, the final partial byte padded with zero bits on the right
(low-order side) — this is what the source's `acc << (8 - acc_len)`
flush does. -/
def packAcc : List Nat → Nat → Nat → Bytes
  | [], acc, accLen => if accLen = 0 then [] else [acc * 2 ^ (8 - accLen)]
  | b :: rest, acc, accLen =>
    if accLen + 1 = 8 then (acc * 2 + b) :: packAcc rest 0 0
    else packAcc rest (acc * 2 + b) (accLen + 1)

/-- Packing as the claim words it: the final partial byte is LEFT-padded
with zero bits, i.e. the emitted bits stay in the low-order positions of
the last byte. -/
def packAccLeftPad : List Nat → Nat → Nat → Bytes
  | [], acc, accLen => if accLen = 0 then [] else [acc]
  | b :: rest, acc, accLen =>
    if accLen + 1 = 8 then (acc * 2 + b) :: packAccLeftPad rest 0 0
    else packAccLeftPad rest (acc * 2 + b) (accLen + 1)

/-- The extractor exactly as the claim describes it (left-padded final
byte).  Modelled from the claim's words, to be compared with
`von_neumann`. -/
def von_neumann_claim (bits : Bytes) : Bytes :=
  packAccLeftPad (vnEmit (toBits bits)) 0 0

/-- The extractor with the claim's algorithm but the source's actual
right-padded final byte. -/
def von_neumann_rightpad (bits : Bytes) : Bytes :=
  packAcc (vnEmit (toBits bits)) 0 0

/-- Decidable test that a bit list consists solely of concordant
(non-overlapping) pairs, a trailing lone bit allowed. -/
def pairsConcordant : List Nat → Bool
  | b1 :: b2 :: rest => (b1 == b2) && pairsConcordant rest
  | _ => true

/-! ## Health checks (`_health_checks`) -/

/-- The repetition-count scan of `_health_checks`: for each bit, compare
with the previous one, extend or restart the current run, and track the
maximum (`cur += 1; if cur > max_run: max_run = cur`). -/
def runScan : List Nat → Nat → Nat → Nat → Nat
  | [], _, _, maxRun => maxRun
  | b :: rest, prev, cur, maxRun =>
    if b = prev then runScan rest b (cur + 1) (max maxRun (cur + 1))
    else runScan rest b 1 maxRun

/-- `max_run` as computed by `_health_checks`: initialised to `1` (also
for an empty bit list), then the scan from the second bit on. -/
def maxRunOf (bits : List Nat) : Nat :=
  match bits with
  | [] => 1
  | b :: rest => runScan rest b 1 1

/-- The adaptive-proportion window loop of `_health_checks`:
`for s in range(0, len(bits)-window+1, window)` visits exactly the
`len(bits) / 1024` aligned complete 1024-bit windows; return the ones
count of the first window outside `[448, 576]`, if any. -/
def aptFirstBad (bits : List Nat) : Option Nat :=
  ((List.range (bits.length / 1024)).map
      (fun j => ((bits.drop (1024 * j)).take 1024).sum)).find?
    (fun ones => decide (ones < 448 ∨ 576 < ones))

/-- `_health_checks(raw)` from the source: bit expansion, repetition
count test (fail above 100), then adaptive proportion test over 1024-bit
windows (fail outside `[448, 576]`), with the source's diagnostics. -/
def health_checks (raw : Bytes) : Bool × String :=
  let bits := toBits raw
  let maxRun := maxRunOf bits
  if 100 < maxRun then
    (false, "Repetition count too high: " ++ toString maxRun)
  else
    match aptFirstBad bits with
    | some ones =>
      (false, "Adaptive proportion out of range (" ++ toString ones ++ "/1024)")
    | none => (true, "ok")

/-- Spec-level repetition predicate: some `k` consecutive bits are all
equal (a run of identical consecutive bits of length `k`). -/
def hasConstSeg (bits : List Nat) (k : Nat) : Prop :=
  ∃ i b, (bits.drop i).take k = List.replicate k b

/-- Spec-level adaptive-proportion failure: some complete aligned
1024-bit window has a count of ones outside `[448, 576]`. -/
def aptSpecFails (bits : List Nat) : Prop :=
  ∃ j, j < bits.length / 1024 ∧
    (((bits.drop (1024 * j)).take 1024).count 1 < 448 ∨
      576 < ((bits.drop (1024 * j)).take 1024).count 1)

/-- Helper for the run characterisation: the length of the longest run
in `replicate cur prev ++ l`, tracked the way the scan does. -/
def chainMax (prev cur : Nat) : List Nat → Nat
  | [] => cur
  | b :: rest => if b = prev then chainMax b (cur + 1) rest
                 else max cur (chainMax b 1 rest)

/-! ## HMAC-DRBG (`HMAC_DRBG`) -/

/-- The HMAC primitive handed to the DRBG.  The source uses
`hmac.new(key, data, hashlib.sha256).digest()`, whose digests are never
empty (32 bytes); nonemptiness is what makes the `generate` loop
terminate, so it is bundled here. -/
structure HmacF where
  f : Bytes → Bytes → Bytes
  len_pos : ∀ k v, 0 < (f k v).length

/-- The DRBG internal state: `self.K` and `self.V`. -/
structure DRBGState where
  K : Bytes
  V : Bytes
deriving DecidableEq

/-- `HMAC_DRBG._update(provided_data)` from the source. -/
def hmacDRBG_update (H : HmacF) (st : DRBGState) (provided_data : Bytes) :
    DRBGState :=
  let K1 := H.f st.K (st.V ++ [0] ++ provided_data)
  let V1 := H.f K1 st.V
  if provided_data ≠ [] then
    let K2 := H.f K1 (V1 ++ [1] ++ provided_data)
    let V2 := H.f K2 V1
    ⟨K2, V2⟩
  else ⟨K1, V1⟩

/-- `HMAC_DRBG.__init__(seed_material)`: `K = 32` zero bytes,
`V = 32` bytes of value `1`, then one `_update(seed_material)`. -/
def hmacDRBG_new (H : HmacF) (seed_material : Bytes) : DRBGState :=
  hmacDRBG_update H ⟨List.replicate 32 0, List.replicate 32 1⟩ seed_material

/-- `HMAC_DRBG.reseed(seed_material)` from the source. -/
def hmacDRBG_reseed (H : HmacF) (st : DRBGState) (seed_material : Bytes) :
    DRBGState :=
  hmacDRBG_update H st seed_material

/-- The `while len(out) < n_bytes` loop of `HMAC_DRBG.generate`:
`V = hmac(K, V); out += V`.  Returns the final `V` and the full output
buffer.  Terminates because each HMAC block is nonempty. -/
def hmacDRBG_genLoop (H : HmacF) (K : Bytes) (n_bytes : Nat)
    (V out : Bytes) : Bytes × Bytes :=
  if out.length < n_bytes then
    let V1 := H.f K V
    hmacDRBG_genLoop H K n_bytes V1 (out ++ V1)
  else (V, out)
termination_by n_bytes - out.length
decreasing_by
  have h1 := H.len_pos K V
  simp only [List.length_append]
  omega

/-- `HMAC_DRBG.generate(n_bytes)` from the source: run the block loop,
then `_update()` with empty data, and return `out[:n_bytes]` together
with the new state. -/
def hmacDRBG_generate (H : HmacF) (st : DRBGState) (n_bytes : Nat) :
    Bytes × DRBGState :=
  let p := hmacDRBG_genLoop H st.K n_bytes st.V []
  (p.2.take n_bytes, hmacDRBG_update H ⟨st.K, p.1⟩ [])

/-! Spec-side DRBG definitions (modelled from the spec's words in §4.6,
for the refinement claim). -/

/-- Spec §4.6 `update`: `K ← HMAC(K, V || 0x00 || provided_data)`;
`V ← HMAC(K, V)`; if `provided_data` is non-empty, repeat with `0x01` in
place of `0x00`. -/
def drbg_update_spec (H : HmacF) (st : DRBGState) (provided_data : Bytes) :
    DRBGState :=
  let K1 := H.f st.K (st.V ++ [0] ++ provided_data)
  let V1 := H.f K1 st.V
  if provided_data = [] then ⟨K1, V1⟩
  else
    let K2 := H.f K1 (V1 ++ [1] ++ provided_data)
    let V2 := H.f K2 V1
    ⟨K2, V2⟩

/-- The `i`-fold iterate `V ← HMAC(K, V)`. -/
def iterV (H : HmacF) (K V : Bytes) : Nat → Bytes
  | 0 => V
  | i + 1 => H.f K (iterV H K V i)

/-- Spec §4.6 `generate`, in closed form for a 32-byte HMAC: emit the
first `⌈n/32⌉` iterates of `V ← HMAC(K, V)`, truncate to `n` bytes, and
finish with an empty `update`. -/
def drbg_generate_spec (H : HmacF) (st : DRBGState) (n_bytes : Nat) :
    Bytes × DRBGState :=
  let m := (n_bytes + 31) / 32
  ((((List.range m).map (fun i => iterV H st.K st.V (i + 1))).flatten).take n_bytes,
    drbg_update_spec H ⟨st.K, iterV H st.K st.V m⟩ [])

/-! ## The facade (`VQRTurnRNG`) -/

/-- The facade state: the reseed threshold, the DRBG state, and the
output counter.  `reseeds` counts executions of the reseed pipeline —
the injectable observability hook the spec's test plan calls for
(§8: "observable via an injectable counter/hook in tests"). -/
structure RNGState where
  reseed_interval_bytes : Nat
  drbg : DRBGState
  bytes_generated : Nat
  reseeds : Nat
deriving DecidableEq

/-- `VQRTurnRNG.reseed()`: collect fresh entropy and mix it into the
DRBG.  `collect` is the entropy-collection oracle, indexed by how many
reseeds happened before (each reseed draws fresh, unpredictable seed
material). -/
def VQRTurnRNG_reseed (H : HmacF) (collect : Nat → Bytes) (st : RNGState) :
    RNGState :=
  { st with drbg := hmacDRBG_reseed H st.drbg (collect st.reseeds),
            reseeds := st.reseeds + 1 }

/-- The `while n > 0` loop of `VQRTurnRNG.random_bytes`: check the
reseed threshold, reseed-and-reset if reached, generate a chunk of
`min n 4096` bytes, account for it, continue.  The third component of
the result records `bytes_generated` as it stood at each
`drbg.generate` call (the observability trace; the first two components
are the source's return value and post state). -/
def random_bytes_loop (H : HmacF) (collect : Nat → Bytes) (st : RNGState)
    (n : Nat) (out : Bytes) : Bytes × RNGState × List Nat :=
  if 0 < n then
    let st1 := if st.reseed_interval_bytes ≤ st.bytes_generated then
        let str := VQRTurnRNG_reseed H collect st
        { str with bytes_generated := 0 }
      else st
    let tk := min n 4096
    let p := hmacDRBG_generate H st1.drbg tk
    let r := random_bytes_loop H collect
      { st1 with drbg := p.2, bytes_generated := st1.bytes_generated + tk }
      (n - tk) (out ++ p.1)
    (r.1, r.2.1, st1.bytes_generated :: r.2.2)
  else (out, st, [])
termination_by n
decreasing_by omega

/-- `VQRTurnRNG.random_bytes(n)` from the source. -/
def VQRTurnRNG_random_bytes (H : HmacF) (collect : Nat → Bytes)
    (st : RNGState) (n : Nat) : Bytes × RNGState :=
  ((random_bytes_loop H collect st n []).1,
    (random_bytes_loop H collect st n []).2.1)

/-- `VQRTurnRNG.random_u64()`: big-endian interpretation of
`random_bytes(8)`. -/
def VQRTurnRNG_random_u64 (H : HmacF) (collect : Nat → Bytes)
    (st : RNGState) : Nat × RNGState :=
  let p := VQRTurnRNG_random_bytes H collect st 8
  (beUnpackQ p.1, p.2)

/-- Round `num / den` to the nearest integer, ties to even
(IEEE-754 round-to-nearest-even). -/
def roundHalfEven (num den : Nat) : Nat :=
  let q := num / den
  let r := num % den
  if 2 * r < den then q
  else if den < 2 * r then q + 1
  else if q % 2 = 0 then q else q + 1

/-- The exact value of the IEEE-754 binary64 result of Python's
`x / 2**64` for `0 ≤ x < 2^64` (CPython's float division is correctly
rounded).  For `x` of at most 53 significant bits the quotient is exact;
otherwise the significand is rounded to 53 bits, round-half-even.  All
such quotients are normal doubles, so no subnormal case arises. -/
def floatDivPow64 (x : Nat) : ℚ :=
  if x = 0 then 0
  else
    let e := Nat.log2 x
    if e ≤ 52 then (x : ℚ) / 2 ^ 64
    else ((roundHalfEven x (2 ^ (e - 52)) : ℚ) * 2 ^ (e - 52)) / 2 ^ 64

/-- `VQRTurnRNG.random()`: `self.random_u64() / 2**64` as the IEEE-754
double CPython computes. -/
def VQRTurnRNG_random (H : HmacF) (collect : Nat → Bytes) (st : RNGState) :
    ℚ × RNGState :=
  let p := VQRTurnRNG_random_u64 H collect st
  (floatDivPow64 p.1, p.2)

/-! ## Entropy collection and construction (`_collect_entropy`, `__init__`) -/

/-- The exceptions `_collect_entropy` can propagate: an `os.urandom`
failure (the OS cryptographic source cannot be read), or the
`AttributeError` from reading an attribute that was never assigned. -/
inductive PyError where
  | sourceUnavailable
  | attributeError
deriving DecidableEq

/-- `VQRTurnRNG._collect_entropy(target_bytes)` from the source.
`urandom i` is the result of the `i`-th `os.urandom` call counted from
`ucall` (`none` = the OS source cannot be read, i.e. `os.urandom`
raises); `time_ns` is `int(time.time_ns())`; `bytes_generated` is the
value of the attribute `self.bytes_generated`, `none` when the
attribute has not been assigned yet (reading it then raises
`AttributeError`). -/
def collect_entropy (sha3 : Bytes → Bytes) (urandom : Nat → Option Bytes)
    (ucall : Nat) (delta : Nat → Nat) (time_ns : Nat)
    (bytes_generated : Option Nat) (target_bytes : Nat) :
    Except PyError Bytes :=
  match urandom ucall with
  | none => Except.error PyError.sourceUnavailable
  | some e1 =>
    let e2 := timing_jitter_bytes sha3 delta target_bytes
    let raw := e1 ++ e2
    let ok := (health_checks raw).1
    -- on health failure, `raw += os.urandom(target_bytes)`
    match (if ok then some raw else (urandom (ucall + 1)).map (raw ++ ·)) with
    | none => Except.error PyError.sourceUnavailable
    | some raw2 =>
      let debiased := von_neumann raw2
      -- `hashlib.sha3_256(debiased or raw).digest()`
      let seed := sha3 (if debiased = [] then raw2 else debiased)
      -- `meta = struct.pack("!QQ", int(time.time_ns()), self.bytes_generated)`
      match bytes_generated with
      | none => Except.error PyError.attributeError
      | some bg => Except.ok (sha3 (seed ++ (packQ time_ns ++ packQ bg)))

/-- `VQRTurnRNG.__init__(reseed_interval_bytes)` from the source: set
the threshold, call `_collect_entropy()` (at which point
`self.bytes_generated` has NOT been assigned yet — hence the `none`
argument), build the DRBG, then set `bytes_generated = 0`. -/
def VQRTurnRNG_init (H : HmacF) (sha3 : Bytes → Bytes)
    (urandom : Nat → Option Bytes) (delta : Nat → Nat) (time_ns : Nat)
    (reseed_interval_bytes : Nat) : Except PyError RNGState :=
  match collect_entropy sha3 urandom 0 delta time_ns none 64 with
  | Except.error e => Except.error e
  | Except.ok seed =>
    Except.ok ⟨reseed_interval_bytes, hmacDRBG_new H seed, 0, 0⟩

/-! ## Concrete instances used by witnesses and counterexamples -/

/-- A digest-length-32 stand-in for SHA3-256 (only its digest length is
relevant to the statements it appears in). -/
def sha3c : Bytes → Bytes := fun _ => List.replicate 32 0

/-- A 32-byte-block stand-in HMAC. -/
def Hconst : HmacF :=
  ⟨fun _ _ => List.replicate 32 7, fun _ _ => by simp⟩

/-- A 32-byte-block HMAC whose blocks are all `0xFF` — the shape of an
HMAC-SHA256 output that makes `random_u64` return `2^64 - 1`. -/
def Hff : HmacF :=
  ⟨fun _ _ => List.replicate 32 255, fun _ _ => by simp⟩

/-- A trivial entropy-collection oracle. -/
def collect0 : Nat → Bytes := fun _ => []

/-- A trivial timing oracle. -/
def delta0 : Nat → Nat := fun _ => 0

/-- A fully available `os.urandom` oracle (never fails, returns 64 zero
bytes). -/
def urandomOk : Nat → Option Bytes := fun _ => some (List.replicate 64 0)

/-- A concrete DRBG state. -/
def drbg0 : DRBGState := ⟨List.replicate 32 0, List.replicate 32 1⟩

/-- A fresh facade state with `reseed_interval_bytes = 16`. -/
def st16 : RNGState := ⟨16, drbg0, 0, 0⟩

/-- A fresh facade state with the source's default threshold `1 << 20`. -/
def stDefault : RNGState := ⟨2 ^ 20, drbg0, 0, 0⟩

/-! ## Helper lemmas: Von Neumann extractor -/

theorem vnLoop_eq_packAcc : ∀ (l : List Nat) (acc accLen : Nat),
    vnLoop l acc accLen = packAcc (vnEmit l) acc accLen
  | [], _, _ => rfl
  | [_], _, _ => rfl
  | b1 :: b2 :: rest, acc, accLen => by
    by_cases h : b1 = b2
    · simpa [vnLoop, vnEmit, h] using vnLoop_eq_packAcc rest acc accLen
    · by_cases h8 : accLen + 1 = 8
      · simp [vnLoop, vnEmit, h, h8, packAcc, vnLoop_eq_packAcc rest]
      · simp [vnLoop, vnEmit, h, h8, packAcc, vnLoop_eq_packAcc rest]

theorem vnEmit_concordant : ∀ l : List Nat,
    pairsConcordant l = true → vnEmit l = []
  | [], _ => rfl
  | [_], _ => rfl
  | b1 :: b2 :: rest, h => by
    have h12 : b1 = b2 ∧ pairsConcordant rest = true := by
      simpa [pairsConcordant] using h
    simp [vnEmit, h12.1, vnEmit_concordant rest h12.2]

theorem toBits_cons (a : Nat) (l : Bytes) :
    toBits (a :: l) = byteBits a ++ toBits l := by
  simp [toBits]

theorem byteBits_85 : byteBits 85 = [0, 1, 0, 1, 0, 1, 0, 1] := by decide

theorem vnEmit_85 (rest : List Nat) :
    vnEmit ([0, 1, 0, 1, 0, 1, 0, 1] ++ rest) = 0 :: 0 :: 0 :: 0 :: vnEmit rest := by
  simp [vnEmit]

theorem vnEmit_alternating : ∀ m : Nat,
    vnEmit (toBits (List.replicate m 85)) = List.replicate (4 * m) 0
  | 0 => rfl
  | m + 1 => by
    rw [List.replicate_succ, toBits_cons, byteBits_85, vnEmit_85,
      vnEmit_alternating m]
    have h4 : 4 * (m + 1) = 4 + 4 * m := by omega
    simp [h4, List.replicate_add, List.replicate_succ]

theorem packAcc_zeros : ∀ (j r : Nat), r < 8 →
    packAcc (List.replicate j 0) 0 r = List.replicate ((r + j + 7) / 8) 0
  | 0, r, hr => by
    interval_cases r <;> simp [packAcc]
  | j + 1, r, hr => by
    by_cases h8 : r + 1 = 8
    · have hr7 : r = 7 := by omega
      have hdiv : (7 + (j + 1) + 7) / 8 = (j + 7) / 8 + 1 := by omega
      simp [hr7, List.replicate_succ, packAcc,
        packAcc_zeros j 0 (by omega), hdiv, List.replicate_succ]
    · have hdiv : (r + 1 + j + 7) / 8 = (r + (j + 1) + 7) / 8 := by omega
      simp [List.replicate_succ, packAcc, h8,
        packAcc_zeros j (r + 1) (by omega), hdiv]

/-! ## Claim C6 -/

/-- Claim C6, amended: the extractor reads the bitstream in
non-overlapping pairs, discards concordant pairs, emits `0` for `(0,1)`
and `1` for `(1,0)`, and packs the emitted bits into bytes in order,
padding the final partial byte with zero bits on the RIGHT (low-order
side); alternating `01` input bits give only zero bits (packed into
all-zero bytes), and input consisting solely of `00`/`11` pairs gives
empty output. -/
theorem C6_von_neumann :
    (∀ bs : Bytes, von_neumann bs = von_neumann_rightpad bs)
    ∧ (∀ m : Nat,
        von_neumann (List.replicate m 85) = List.replicate ((4 * m + 7) / 8) 0)
    ∧ (∀ bs : Bytes, pairsConcordant (toBits bs) = true → von_neumann bs = []) := by
  refine ⟨fun bs => vnLoop_eq_packAcc (toBits bs) 0 0, fun m => ?_, fun bs h => ?_⟩
  · rw [von_neumann, vnLoop_eq_packAcc, vnEmit_alternating m]
    simpa using packAcc_zeros (4 * m) 0 (by omega)
  · rw [von_neumann, vnLoop_eq_packAcc, vnEmit_concordant _ h]
    rfl

/-- Witness for C6: a buffer made solely of concordant pairs
(`0x00`, `0xFF`) extracts to nothing. -/
theorem C6_witness : von_neumann [0, 255] = [] :=
  C6_von_neumann.2.2 [0, 255] (by decide)

/-- Counterexample to C6 as stated: on input `0x80` (bit pairs
`10 00 00 00`, one emitted `1` bit) the source right-pads the final
partial byte (`1 << 7 = 0x80`), not left-pads it (`0x01`) as the claim
says. -/
theorem C6_counterexample :
    von_neumann [128] = [128] ∧ von_neumann_claim [128] = [1]
      ∧ von_neumann [128] ≠ von_neumann_claim [128] := by
  refine ⟨by decide, by decide, by decide⟩

/-! ## Helper lemmas: HMAC-DRBG -/

theorem genLoop_length (H : HmacF) (K : Bytes) (n : Nat) (V out : Bytes) :
    n ≤ (hmacDRBG_genLoop H K n V out).2.length := by
  rw [hmacDRBG_genLoop]
  by_cases h : out.length < n
  · rw [if_pos h]
    exact genLoop_length H K n (H.f K V) (out ++ H.f K V)
  · rw [if_neg h]
    exact Nat.le_of_not_lt h
termination_by n - out.length
decreasing_by
  have h1 := H.len_pos K V
  simp only [List.length_append]
  omega

theorem generate_length (H : HmacF) (st : DRBGState) (n : Nat) :
    (hmacDRBG_generate H st n).1.length = n := by
  have h := genLoop_length H st.K n st.V []
  simp [hmacDRBG_generate]
  omega

theorem iterV_shift (H : HmacF) (K V : Bytes) : ∀ j : Nat,
    iterV H K (H.f K V) j = iterV H K V (j + 1)
  | 0 => rfl
  | j + 1 => by rw [iterV, iterV_shift H K V j]; rfl

theorem update_eq_spec (H : HmacF) (st : DRBGState) (d : Bytes) :
    hmacDRBG_update H st d = drbg_update_spec H st d := by
  by_cases h : d = [] <;> simp [hmacDRBG_update, drbg_update_spec, h]

theorem genLoop_closed (H : HmacF) (hlen : ∀ k v, (H.f k v).length = 32)
    (K : Bytes) (n : Nat) (V out : Bytes) :
    hmacDRBG_genLoop H K n V out =
      (iterV H K V ((n - out.length + 31) / 32),
        out ++ ((List.range ((n - out.length + 31) / 32)).map
          (fun i => iterV H K V (i + 1))).flatten) := by
  rw [hmacDRBG_genLoop]
  by_cases h : out.length < n
  · rw [if_pos h]
    have hrec := genLoop_closed H hlen K n (H.f K V) (out ++ H.f K V)
    have hlen1 : (out ++ H.f K V).length = out.length + 32 := by
      simp [hlen K V]
    have hm : (n - out.length + 31) / 32 =
        (n - (out.length + 32) + 31) / 32 + 1 := by omega
    rw [hrec, hlen1, hm, Prod.mk.injEq]
    refine ⟨by rw [iterV_shift], ?_⟩
    rw [List.range_succ_eq_map]
    simp only [List.map_cons, List.map_map, List.flatten_cons,
      List.append_assoc]
    have hmap : (List.range ((n - (out.length + 32) + 31) / 32)).map
          ((fun i => iterV H K V (i + 1)) ∘ Nat.succ) =
        (List.range ((n - (out.length + 32) + 31) / 32)).map
          (fun i => iterV H K (H.f K V) (i + 1)) := by
      refine List.map_congr_left (fun i _ => ?_)
      rw [iterV_shift]
      rfl
    rw [← hmap]
    have hV1 : iterV H K V (0 + 1) = H.f K V := by simp [iterV]
    rw [hV1]
  · rw [if_neg h]
    have h0 : (n - out.length + 31) / 32 = 0 := by omega
    rw [h0]
    simp [iterV]
termination_by n - out.length
decreasing_by
  have h1 := H.len_pos K V
  simp only [List.length_append]
  omega

theorem generate_eq_spec (H : HmacF) (hlen : ∀ k v, (H.f k v).length = 32)
    (st : DRBGState) (n : Nat) :
    hmacDRBG_generate H st n = drbg_generate_spec H st n := by
  unfold hmacDRBG_generate drbg_generate_spec
  rw [genLoop_closed H hlen st.K n st.V []]
  simp [update_eq_spec]

/-! ## Claim C5 -/

/-- Claim C5: the DRBG implements exactly the specified HMAC-DRBG
construction — `new` starts from all-zero `K` and all-one `V` (32 bytes
each) and runs one `update(seed_material)`; `update` is the two-step
HMAC mix, repeated with `0x01` exactly when the data is non-empty;
`reseed` equals `update` on the existing state; `generate(n)` emits the
first `⌈n/32⌉` iterates of `V ← HMAC(K, V)` truncated to `n` bytes and
finishes with an empty `update`.  Each operation is proved equal to a
definition transcribed from the spec's words. -/
theorem C5_drbg_construction :
    (∀ (H : HmacF) (seed : Bytes),
      hmacDRBG_new H seed =
        drbg_update_spec H ⟨List.replicate 32 0, List.replicate 32 1⟩ seed)
    ∧ (∀ (H : HmacF) (st : DRBGState) (d : Bytes),
        hmacDRBG_update H st d = drbg_update_spec H st d)
    ∧ (∀ (H : HmacF) (st : DRBGState) (s : Bytes),
        hmacDRBG_reseed H st s = hmacDRBG_update H st s)
    ∧ (∀ H : HmacF, (∀ k v, (H.f k v).length = 32) →
        ∀ (st : DRBGState) (n : Nat),
          hmacDRBG_generate H st n = drbg_generate_spec H st n) :=
  ⟨fun H seed => update_eq_spec H _ seed,
    fun H st d => update_eq_spec H st d,
    fun _ _ _ => rfl,
    fun H hlen st n => generate_eq_spec H hlen st n⟩

/-- Witness for C5: the generate refinement instantiated at a concrete
32-byte HMAC, state and request size. -/
theorem C5_witness :
    hmacDRBG_generate Hconst drbg0 5 = drbg_generate_spec Hconst drbg0 5 :=
  C5_drbg_construction.2.2.2 Hconst (fun _ _ => by simp [Hconst]) drbg0 5

/-! ## Helper lemmas: the facade loop -/

theorem loop_interval (H : HmacF) (collect : Nat → Bytes) (st : RNGState)
    (n : Nat) (out : Bytes) :
    (random_bytes_loop H collect st n out).2.1.reseed_interval_bytes
      = st.reseed_interval_bytes := by
  rw [random_bytes_loop]
  by_cases h : 0 < n
  · rw [if_pos h]
    dsimp only
    by_cases hr : st.reseed_interval_bytes ≤ st.bytes_generated
    · rw [if_pos hr]
      rw [loop_interval H collect _ _ _]
      simp [VQRTurnRNG_reseed]
    · rw [if_neg hr]
      rw [loop_interval H collect _ _ _]
  · rw [if_neg h]
termination_by n
decreasing_by all_goals omega

theorem loop_reseeds_mono (H : HmacF) (collect : Nat → Bytes) (st : RNGState)
    (n : Nat) (out : Bytes) :
    st.reseeds ≤ (random_bytes_loop H collect st n out).2.1.reseeds := by
  rw [random_bytes_loop]
  by_cases h : 0 < n
  · rw [if_pos h]
    dsimp only
    by_cases hr : st.reseed_interval_bytes ≤ st.bytes_generated
    · rw [if_pos hr]
      refine le_trans ?_ (loop_reseeds_mono H collect _ _ _)
      simp [VQRTurnRNG_reseed]
    · rw [if_neg hr]
      have h2 := loop_reseeds_mono H collect
        { st with drbg := (hmacDRBG_generate H st.drbg (min n 4096)).2,
                  bytes_generated := st.bytes_generated + min n 4096 }
        (n - min n 4096) (out ++ (hmacDRBG_generate H st.drbg (min n 4096)).1)
      simpa using h2
  · rw [if_neg h]
termination_by n
decreasing_by all_goals omega

theorem loop_out_length (H : HmacF) (collect : Nat → Bytes) (st : RNGState)
    (n : Nat) (out : Bytes) :
    (random_bytes_loop H collect st n out).1.length = out.length + n := by
  rw [random_bytes_loop]
  by_cases h : 0 < n
  · rw [if_pos h]
    dsimp only
    by_cases hr : st.reseed_interval_bytes ≤ st.bytes_generated
    · rw [if_pos hr]
      rw [loop_out_length H collect _ _ _]
      simp [generate_length]
      omega
    · rw [if_neg hr]
      rw [loop_out_length H collect _ _ _]
      simp [generate_length]
      omega
  · rw [if_neg h]
    simp
    omega
termination_by n
decreasing_by all_goals omega

theorem loop_trace_bound (H : HmacF) (collect : Nat → Bytes) (st : RNGState)
    (n : Nat) (out : Bytes) :
    ∀ v ∈ (random_bytes_loop H collect st n out).2.2,
      v ≤ st.reseed_interval_bytes := by
  rw [random_bytes_loop]
  by_cases h : 0 < n
  · rw [if_pos h]
    dsimp only
    by_cases hr : st.reseed_interval_bytes ≤ st.bytes_generated
    · rw [if_pos hr]
      intro v hv
      rcases List.mem_cons.mp hv with hv0 | hv1
      · simp [hv0]
      · have := loop_trace_bound H collect _ _ _ v hv1
        simpa [VQRTurnRNG_reseed] using this
    · rw [if_neg hr]
      intro v hv
      rcases List.mem_cons.mp hv with hv0 | hv1
      · omega
      · have h2 := loop_trace_bound H collect
          { st with drbg := (hmacDRBG_generate H st.drbg (min n 4096)).2,
                    bytes_generated := st.bytes_generated + min n 4096 }
          (n - min n 4096) (out ++ (hmacDRBG_generate H st.drbg (min n 4096)).1)
          v hv1
        simpa using h2
  · rw [if_neg h]
    intro v hv
    simp at hv
termination_by n
decreasing_by all_goals omega

/-- A call that fits in a single 4096-byte chunk and starts strictly
below the threshold performs no reseed: it is exactly one
`drbg.generate(n)` with the counter advanced by `n`. -/
theorem loop_single_chunk (H : HmacF) (collect : Nat → Bytes)
    (st : RNGState) (n : Nat) (out : Bytes) (h1 : 0 < n) (h2 : n ≤ 4096)
    (h3 : st.bytes_generated < st.reseed_interval_bytes) :
    random_bytes_loop H collect st n out =
      (out ++ (hmacDRBG_generate H st.drbg n).1,
        { st with drbg := (hmacDRBG_generate H st.drbg n).2,
                  bytes_generated := st.bytes_generated + n },
        [st.bytes_generated]) := by
  rw [random_bytes_loop, if_pos h1]
  dsimp only
  rw [if_neg (by omega), Nat.min_eq_left h2]
  rw [random_bytes_loop, if_neg (by omega)]

/-- A call beginning at or above the threshold performs at least one
reseed. -/
theorem loop_trigger (H : HmacF) (collect : Nat → Bytes) (st : RNGState)
    (n : Nat) (out : Bytes) (h1 : 0 < n)
    (hr : st.reseed_interval_bytes ≤ st.bytes_generated) :
    st.reseeds + 1 ≤ (random_bytes_loop H collect st n out).2.1.reseeds := by
  rw [random_bytes_loop, if_pos h1]
  dsimp only
  rw [if_pos hr]
  refine le_trans ?_ (loop_reseeds_mono H collect _ _ _)
  simp [VQRTurnRNG_reseed]

/-! ## Claim C2 -/

/-- Claim C2, amended: a reseed-and-reset happens before generating a
chunk exactly when `bytes_generated` has already reached
`reseed_interval_bytes` at that chunk's start — a request that would
merely exceed the threshold does not trigger one; consequently the
counter never exceeds the threshold at the start of any internal
`drbg.generate` call (the recorded trace), and with
`reseed_interval_bytes = 16` the reseed pipeline has executed at least
once after 20 bytes are requested as a call of 16 followed by a call of
4. -/
theorem C2_reseed_policy :
    (∀ (H : HmacF) (collect : Nat → Bytes) (st : RNGState) (n : Nat),
      0 < n → n ≤ 4096 → st.bytes_generated < st.reseed_interval_bytes →
        (VQRTurnRNG_random_bytes H collect st n).2.reseeds = st.reseeds
        ∧ (VQRTurnRNG_random_bytes H collect st n).2.bytes_generated
            = st.bytes_generated + n)
    ∧ (∀ (H : HmacF) (collect : Nat → Bytes) (st : RNGState) (n : Nat),
        0 < n → st.reseed_interval_bytes ≤ st.bytes_generated →
          st.reseeds + 1 ≤ (VQRTurnRNG_random_bytes H collect st n).2.reseeds)
    ∧ (∀ (H : HmacF) (collect : Nat → Bytes) (st : RNGState) (n : Nat),
        ∀ v ∈ (random_bytes_loop H collect st n []).2.2,
          v ≤ st.reseed_interval_bytes)
    ∧ (∀ (H : HmacF) (collect : Nat → Bytes) (d : DRBGState),
        1 ≤ (VQRTurnRNG_random_bytes H collect
              (VQRTurnRNG_random_bytes H collect ⟨16, d, 0, 0⟩ 16).2 4).2.reseeds) := by
  refine ⟨fun H collect st n h1 h2 h3 => ?_, fun H collect st n h1 hr => ?_,
    fun H collect st n => loop_trace_bound H collect st n [],
    fun H collect d => ?_⟩
  · rw [VQRTurnRNG_random_bytes, loop_single_chunk H collect st n [] h1 h2 h3]
    exact ⟨rfl, rfl⟩
  · exact loop_trigger H collect st n [] h1 hr
  · have hfirst := loop_single_chunk H collect ⟨16, d, 0, 0⟩ 16 []
      (by omega) (by omega) (by simp)
    rw [VQRTurnRNG_random_bytes, VQRTurnRNG_random_bytes, hfirst]
    have htrig := loop_trigger H collect
      ⟨16, (hmacDRBG_generate H d 16).2, 16, 0⟩ 4 [] (by omega) (by simp)
    simpa using htrig

/-- Witness for C2: on a fresh interval-16 facade, a 7-byte request
reseeds nothing and advances the counter to 7. -/
theorem C2_witness :
    (VQRTurnRNG_random_bytes Hconst collect0 st16 7).2.reseeds = 0
    ∧ (VQRTurnRNG_random_bytes Hconst collect0 st16 7).2.bytes_generated = 7 :=
  C2_reseed_policy.1 Hconst collect0 st16 7 (by decide) (by decide) (by decide)

/-- Counterexample to C2 as stated: a fresh facade with
`reseed_interval_bytes = 16` serves a single `random_bytes(20)` call —
which would exceed the threshold — without ever running the reseed
pipeline (`reseeds` stays 0), and its counter ends at 20. -/
theorem C2_counterexample :
    (VQRTurnRNG_random_bytes Hconst collect0 st16 20).2.reseeds = 0
    ∧ (VQRTurnRNG_random_bytes Hconst collect0 st16 20).2.bytes_generated = 20 := by
  rw [VQRTurnRNG_random_bytes,
    loop_single_chunk Hconst collect0 st16 20 [] (by decide) (by decide) (by decide)]
  exact ⟨rfl, rfl⟩

/-! ## Claim C4 -/

/-- Claim C4: for every request size `n` and every facade state,
`random_bytes(n)` returns exactly `n` bytes (and, being definable by
well-founded recursion, terminates). -/
theorem C4_random_bytes_length (H : HmacF) (collect : Nat → Bytes)
    (st : RNGState) (n : Nat) :
    (VQRTurnRNG_random_bytes H collect st n).1.length = n := by
  have h := loop_out_length H collect st n []
  simpa [VQRTurnRNG_random_bytes] using h

/-! ## Claim C10 -/

/-- Claim C10: `random_bytes(0)` returns the empty byte string and
leaves the whole facade state (DRBG secrets, counter, reseed count)
unchanged, for every state — including states whose counter has already
reached the threshold. -/
theorem C10_random_bytes_zero (H : HmacF) (collect : Nat → Bytes)
    (st : RNGState) :
    VQRTurnRNG_random_bytes H collect st 0 = ([], st) := by
  rw [VQRTurnRNG_random_bytes, random_bytes_loop]
  simp

/-! ## Helper lemmas: repetition count characterisation -/

theorem chainMax_ge_cur : ∀ (l : List Nat) (prev cur : Nat),
    cur ≤ chainMax prev cur l
  | [], _, _ => le_refl _
  | b :: rest, prev, cur => by
    by_cases h : b = prev
    · simp only [chainMax, if_pos h]
      exact le_trans (Nat.le_succ cur) (chainMax_ge_cur rest b (cur + 1))
    · simp only [chainMax, if_neg h]
      exact Nat.le_max_left _ _

theorem runScan_eq_chainMax : ∀ (l : List Nat) (prev cur mr : Nat),
    1 ≤ cur → cur ≤ mr →
    runScan l prev cur mr = max mr (chainMax prev cur l)
  | [], prev, cur, mr, _, h2 => by
    simp only [runScan, chainMax]
    omega
  | b :: rest, prev, cur, mr, h1, h2 => by
    by_cases h : b = prev
    · simp only [runScan, chainMax, if_pos h]
      rw [runScan_eq_chainMax rest b (cur + 1) (max mr (cur + 1)) (by omega)
        (Nat.le_max_right _ _)]
      have h3 := chainMax_ge_cur rest b (cur + 1)
      omega
    · simp only [runScan, chainMax, if_neg h]
      rw [runScan_eq_chainMax rest b 1 mr (by omega) (by omega)]
      omega

theorem maxRunOf_cons (b : Nat) (rest : List Nat) :
    maxRunOf (b :: rest) = chainMax b 1 rest := by
  rw [maxRunOf, runScan_eq_chainMax rest b 1 1 (le_refl 1) (le_refl 1)]
  exact Nat.max_eq_right (chainMax_ge_cur rest b 1)

theorem chainMax_sound : ∀ (l : List Nat) (prev cur k : Nat),
    k ≤ chainMax prev cur l →
    hasConstSeg (List.replicate cur prev ++ l) k
  | [], prev, cur, k, hk => by
    refine ⟨0, prev, ?_⟩
    simp only [chainMax] at hk
    simp [Nat.min_eq_left hk]
  | b :: rest, prev, cur, k, hk => by
    by_cases h : b = prev
    · subst h
      simp only [chainMax, if_pos rfl] at hk
      have hrec := chainMax_sound rest b (cur + 1) k hk
      rwa [List.replicate_succ', List.append_assoc, List.singleton_append]
        at hrec
    · simp only [chainMax, if_neg h] at hk
      rcases le_max_iff.mp hk with hc | hx
      · refine ⟨0, prev, ?_⟩
        rw [List.drop_zero, List.take_append_of_le_length
          (by simpa using hc), List.take_replicate, Nat.min_eq_left hc]
      · have hrec := chainMax_sound rest b 1 k hx
        rw [List.replicate_succ', List.replicate_zero, List.nil_append,
          List.singleton_append] at hrec
        obtain ⟨i, c, hseg⟩ := hrec
        refine ⟨cur + i, c, ?_⟩
        rw [show cur + i = (List.replicate cur prev).length + i by simp,
          List.drop_append]
        exact hseg

theorem chainMax_complete : ∀ (l : List Nat) (prev cur k : Nat), 1 ≤ cur →
    hasConstSeg (List.replicate cur prev ++ l) k → k ≤ chainMax prev cur l
  | [], prev, cur, k, _, ⟨i, b, h⟩ => by
    rw [List.append_nil, List.drop_replicate, List.take_replicate] at h
    have hlen := congrArg List.length h
    simp only [List.length_replicate] at hlen
    simp only [chainMax]
    omega
  | b :: rest, prev, cur, k, hcur, hseg => by
    by_cases h : b = prev
    · subst h
      rw [show List.replicate cur b ++ b :: rest
            = List.replicate (cur + 1) b ++ rest by
          rw [List.replicate_succ', List.append_assoc, List.singleton_append]]
        at hseg
      have := chainMax_complete rest b (cur + 1) k (by omega) hseg
      simpa [chainMax] using this
    · obtain ⟨i, c, hc⟩ := hseg
      have hlen := congrArg List.length hc
      simp only [List.length_take, List.length_drop, List.length_append,
        List.length_replicate, List.length_cons, List.length_replicate] at hlen
      simp only [chainMax, if_neg h]
      rcases Nat.lt_or_ge k 1 with hk0 | hk1
      · omega
      rcases le_or_lt (i + k) cur with hA | hBC
      · -- the constant segment lies inside the replicate prefix
        have : k ≤ cur := by omega
        omega
      rcases le_or_lt cur i with hB | hC
      · -- the constant segment lies inside `b :: rest`
        have hdrop : (List.replicate cur prev ++ b :: rest).drop i
            = (b :: rest).drop (i - cur) := by
          rw [List.drop_append_eq_append_drop]
          simp only [List.drop_replicate, List.length_replicate]
          rw [show cur - i = 0 by omega]
          simp
        rw [hdrop] at hc
        have hrec := chainMax_complete rest b 1 k (le_refl 1)
          (by
            rw [List.replicate_succ', List.replicate_zero, List.nil_append,
              List.singleton_append]
            exact ⟨i - cur, c, hc⟩)
        omega
      · -- the segment would straddle the boundary: impossible since the
        -- last `prev` of the prefix and `b` would then both equal `c`
        exfalso
        have hdrop : (List.replicate cur prev ++ b :: rest).drop i
            = List.replicate (cur - i) prev ++ b :: rest := by
          rw [List.drop_append_eq_append_drop]
          simp only [List.drop_replicate, List.length_replicate]
          rw [show i - cur = 0 by omega]
          simp
        rw [hdrop, List.take_append_eq_append_take, List.take_replicate,
          List.length_replicate] at hc
        rw [show k - (cur - i) = (k - (cur - i) - 1) + 1 by omega,
          List.take_succ_cons] at hc
        obtain ⟨-, hall⟩ := List.eq_replicate_iff.mp hc
        have hp : prev = c := by
          refine hall prev (List.mem_append_left _ ?_)
          exact List.mem_replicate.mpr ⟨by omega, rfl⟩
        have hb : b = c := by
          refine hall b (List.mem_append_right _ ?_)
          exact List.mem_cons_self _ _
        exact h (by rw [hp, hb])

/-- The claim's repetition test matches the scan: there is a run of at
least `k ≥ 2` identical consecutive bits iff the scanned `max_run`
reaches `k`. -/
theorem maxRun_iff_hasConstSeg (bits : List Nat) (k : Nat) (hk : 2 ≤ k) :
    k ≤ maxRunOf bits ↔ hasConstSeg bits k := by
  cases bits with
  | nil =>
    simp only [maxRunOf]
    constructor
    · intro hle; omega
    · rintro ⟨i, b, hib⟩
      have := congrArg List.length hib
      simp at this
      omega
  | cons b rest =>
    rw [maxRunOf_cons]
    constructor
    · intro hle
      have h1 := chainMax_sound rest b 1 k hle
      simpa using h1
    · intro hseg
      refine chainMax_complete rest b 1 k (le_refl 1) ?_
      simpa using hseg

/-! ## Helper lemmas: adaptive proportion and the full health check -/

theorem toBits_le_one (raw : Bytes) : ∀ x ∈ toBits raw, x ≤ 1 := by
  intro x hx
  simp only [toBits, List.mem_flatten, List.mem_map] at hx
  obtain ⟨l, ⟨bb, _, hl⟩, hxl⟩ := hx
  subst hl
  simp only [byteBits, List.mem_map, List.mem_range] at hxl
  obtain ⟨j, _, hj⟩ := hxl
  omega

theorem sum_eq_count_one (l : List Nat) (h : ∀ x ∈ l, x ≤ 1) :
    l.sum = l.count 1 := by
  induction l with
  | nil => rfl
  | cons x rest ih =>
    have hx := h x (List.mem_cons_self _ _)
    have hr := ih (fun y hy => h y (List.mem_cons_of_mem _ hy))
    rcases Nat.le_one_iff_eq_zero_or_eq_one.mp hx with h0 | h1
    · subst h0; simp [List.count_cons, hr]
    · subst h1; simp [List.count_cons, hr]; omega

theorem aptFirstBad_isSome_iff (bits : List Nat) (hb : ∀ x ∈ bits, x ≤ 1) :
    (aptFirstBad bits).isSome = true ↔ aptSpecFails bits := by
  rw [aptFirstBad, List.find?_isSome]
  constructor
  · rintro ⟨x, hx, hpx⟩
    simp only [List.mem_map, List.mem_range] at hx
    obtain ⟨j, hj, hxj⟩ := hx
    subst hxj
    rw [sum_eq_count_one _ (fun y hy =>
      hb y (List.mem_of_mem_drop (List.mem_of_mem_take hy)))] at hpx
    exact ⟨j, hj, by simpa using hpx⟩
  · rintro ⟨j, hj, hcount⟩
    refine ⟨((bits.drop (1024 * j)).take 1024).sum, ?_, ?_⟩
    · exact List.mem_map.mpr ⟨j, List.mem_range.mpr hj, rfl⟩
    · rw [sum_eq_count_one _ (fun y hy =>
        hb y (List.mem_of_mem_drop (List.mem_of_mem_take hy)))]
      simpa using hcount

theorem health_checks_false_iff (raw : Bytes) :
    (health_checks raw).1 = false ↔
      hasConstSeg (toBits raw) 101 ∨ aptSpecFails (toBits raw) := by
  simp only [health_checks]
  by_cases hrc : 100 < maxRunOf (toBits raw)
  · rw [if_pos hrc]
    simp only [true_iff]
    exact Or.inl ((maxRun_iff_hasConstSeg _ 101 (by omega)).mp (by omega))
  · rw [if_neg hrc]
    have hnseg : ¬ hasConstSeg (toBits raw) 101 := fun hseg => by
      have := (maxRun_iff_hasConstSeg (toBits raw) 101 (by omega)).mpr hseg
      omega
    cases hfb : aptFirstBad (toBits raw) with
    | none =>
      have hnapt : ¬ aptSpecFails (toBits raw) := by
        rw [← aptFirstBad_isSome_iff _ (toBits_le_one raw), hfb]
        simp
      simp [hnseg, hnapt]
    | some ones =>
      have hapt : aptSpecFails (toBits raw) := by
        rw [← aptFirstBad_isSome_iff _ (toBits_le_one raw), hfb]
        rfl
      simp [hapt]

theorem toBits_all_zero (raw : Bytes) (h : ∀ x ∈ raw, x = 0) :
    toBits raw = List.replicate (8 * raw.length) 0 := by
  induction raw with
  | nil => rfl
  | cons b rest ih =>
    have hb : b = 0 := h b (List.mem_cons_self _ _)
    subst hb
    rw [toBits_cons, ih (fun y hy => h y (List.mem_cons_of_mem _ hy))]
    rw [show byteBits 0 = List.replicate 8 0 by decide]
    rw [show 8 * (0 :: rest).length = 8 + 8 * rest.length by simp; omega,
      List.replicate_add]

theorem toBits_length (raw : Bytes) : (toBits raw).length = 8 * raw.length := by
  simp only [toBits, List.length_flatten, List.map_map]
  have h : (raw.map (List.length ∘ byteBits)) = raw.map (fun _ => 8) := by
    refine List.map_congr_left (fun b _ => ?_)
    simp [byteBits]
  rw [h]
  induction raw with
  | nil => rfl
  | cons b rest ih => simp at ih ⊢; omega

/-! ## Claim C7 -/

/-- Claim C7, amended: `_health_checks(raw)` fails exactly when either
test fails — the repetition count test when some run of identical
consecutive bits exceeds 100 (i.e. 101 consecutive equal bits exist),
the adaptive proportion test when some complete aligned 1024-bit window
has a ones count outside `[448, 576]` — and the diagnostic names the
failing test; every all-zero raw buffer of at least 13 bytes (so that
its run of 104 or more zero bits exceeds the bound; shorter all-zero
buffers pass) fails the repetition count test. -/
theorem C7_health_characterisation :
    (∀ raw : Bytes, (health_checks raw).1 = false ↔
        hasConstSeg (toBits raw) 101 ∨ aptSpecFails (toBits raw))
    ∧ (∀ raw : Bytes, hasConstSeg (toBits raw) 101 →
        ∃ s, (health_checks raw).2 = "Repetition count too high: " ++ s)
    ∧ (∀ raw : Bytes, ¬ hasConstSeg (toBits raw) 101 →
        aptSpecFails (toBits raw) →
        ∃ s, (health_checks raw).2 = "Adaptive proportion out of range (" ++ s)
    ∧ (∀ raw : Bytes, 13 ≤ raw.length → (∀ x ∈ raw, x = 0) →
        hasConstSeg (toBits raw) 101 ∧ (health_checks raw).1 = false) := by
  refine ⟨health_checks_false_iff, fun raw hseg => ?_, fun raw hnseg hapt => ?_,
    fun raw hlen hzero => ?_⟩
  · have hrc : 100 < maxRunOf (toBits raw) := by
      have := (maxRun_iff_hasConstSeg (toBits raw) 101 (by omega)).mpr hseg
      omega
    simp only [health_checks, if_pos hrc]
    exact ⟨toString (maxRunOf (toBits raw)), rfl⟩
  · have hrc : ¬ 100 < maxRunOf (toBits raw) := fun hgt => hnseg
      ((maxRun_iff_hasConstSeg (toBits raw) 101 (by omega)).mp (by omega))
    have hsome : (aptFirstBad (toBits raw)).isSome = true :=
      (aptFirstBad_isSome_iff _ (toBits_le_one raw)).mpr hapt
    obtain ⟨ones, hones⟩ := Option.isSome_iff_exists.mp hsome
    simp only [health_checks, if_neg hrc, hones]
    exact ⟨toString ones ++ "/1024)", (String.append_assoc _ _ _)⟩
  · have hseg : hasConstSeg (toBits raw) 101 := by
      rw [toBits_all_zero raw hzero]
      refine ⟨0, 0, ?_⟩
      rw [List.drop_zero, List.take_replicate, Nat.min_eq_left (by omega)]
    exact ⟨hseg, (health_checks_false_iff raw).mpr (Or.inl hseg)⟩

/-- Witness for C7: a 13-byte all-zero buffer has a 104-bit zero run and
fails the health check. -/
theorem C7_witness :
    hasConstSeg (toBits (List.replicate 13 0)) 101
    ∧ (health_checks (List.replicate 13 0)).1 = false :=
  C7_health_characterisation.2.2.2 (List.replicate 13 0) (by simp)
    (fun x hx => List.eq_of_mem_replicate hx)

set_option maxRecDepth 8000 in
/-- Counterexample to C7 as stated: the all-zero 12-byte buffer (96
identical bits, within the bound of 100) passes the health check, so not
every all-zero raw buffer fails the repetition count test. -/
theorem C7_counterexample :
    (health_checks (List.replicate 12 0)).1 = true
    ∧ (∀ x ∈ List.replicate 12 0, x = 0) := by
  refine ⟨by decide, fun x hx => List.eq_of_mem_replicate hx⟩

/-! ## Claim C9 -/

/-- Claim C9: the adaptive proportion test examines only complete
1024-bit windows, so a raw input shorter than 128 bytes is never
subjected to it — such an input passes the whole health check iff it
has no run of more than 100 identical bits; and the default collection
cycle's raw buffer (64 OS bytes plus the 32-byte jitter digest, 96
bytes in total) has no complete window at all. -/
theorem C9_apt_complete_windows_only :
    (∀ raw : Bytes, raw.length < 128 →
      ((health_checks raw).1 = true ↔ ¬ hasConstSeg (toBits raw) 101))
    ∧ (∀ sha3 : Bytes → Bytes, (∀ x, (sha3 x).length = 32) →
        ∀ (delta : Nat → Nat) (e1 : Bytes), e1.length = 64 →
          (e1 ++ timing_jitter_bytes sha3 delta 64).length = 96
          ∧ aptFirstBad (toBits (e1 ++ timing_jitter_bytes sha3 delta 64))
              = none) := by
  constructor
  · intro raw hlen
    have hapt : ¬ aptSpecFails (toBits raw) := by
      rintro ⟨j, hj, -⟩
      rw [toBits_length] at hj
      omega
    have hbool : ((health_checks raw).1 = true)
        ↔ ¬ ((health_checks raw).1 = false) := by
      cases (health_checks raw).1 <;> simp
    rw [hbool, health_checks_false_iff]
    constructor
    · exact fun hn hseg => hn (Or.inl hseg)
    · rintro hn (hseg | hapt2)
      · exact hn hseg
      · exact hapt hapt2
  · intro sha3 hsha delta e1 he1
    have hl96 : (e1 ++ timing_jitter_bytes sha3 delta 64).length = 96 := by
      simp [timing_jitter_bytes, he1, hsha]
    refine ⟨hl96, ?_⟩
    rw [aptFirstBad, toBits_length, hl96]
    rfl

/-- Witness for C9: concrete instances of both parts — the empty buffer
(trivially shorter than 128 bytes), and a concrete 64-byte OS draw with
a digest-length-32 hash. -/
theorem C9_witness :
    ((health_checks []).1 = true ↔ ¬ hasConstSeg (toBits []) 101)
    ∧ (List.replicate 64 5 ++ timing_jitter_bytes sha3c delta0 64).length = 96
    ∧ aptFirstBad (toBits (List.replicate 64 5
        ++ timing_jitter_bytes sha3c delta0 64)) = none :=
  ⟨C9_apt_complete_windows_only.1 [] (by simp),
    (C9_apt_complete_windows_only.2 sha3c (fun x => by simp [sha3c]) delta0
      (List.replicate 64 5) (by simp)).1,
    (C9_apt_complete_windows_only.2 sha3c (fun x => by simp [sha3c]) delta0
      (List.replicate 64 5) (by simp)).2⟩

/-! ## Claim C3 -/

/-- Claim C3, amended: for a hash with 32-byte digests (SHA3-256),
`_timing_jitter_bytes(n_bytes)` always returns `min n_bytes 32` bytes —
the digest truncated to `n_bytes`, which cannot be expanded beyond 32
bytes — and never fails (it is a total function). -/
theorem C3_jitter_length (sha3 : Bytes → Bytes)
    (h : ∀ x, (sha3 x).length = 32) (delta : Nat → Nat) (n_bytes : Nat) :
    (timing_jitter_bytes sha3 delta n_bytes).length = min n_bytes 32 := by
  simp [timing_jitter_bytes, h]

/-- Witness for C3: for requests of at most 32 bytes the returned length
is the requested one. -/
theorem C3_witness :
    (timing_jitter_bytes sha3c delta0 7).length = min 7 32 :=
  C3_jitter_length sha3c (fun x => by simp [sha3c]) delta0 7

/-- Counterexample to C3 as stated: at request size 64 — the very size
`_collect_entropy` passes — the function returns 32 bytes, not 64
(`digest()[:64]` of a 32-byte SHA3-256 digest). -/
theorem C3_counterexample :
    (timing_jitter_bytes sha3c delta0 64).length = 32
    ∧ (timing_jitter_bytes sha3c delta0 64).length ≠ 64 := by
  constructor <;> simp [timing_jitter_bytes, sha3c]

/-! ## Claim C8: helper evaluations -/

theorem Hff_random_bytes8 :
    (VQRTurnRNG_random_bytes Hff collect0 stDefault 8).1
      = List.replicate 8 255 := by
  rw [VQRTurnRNG_random_bytes,
    loop_single_chunk Hff collect0 stDefault 8 [] (by decide) (by decide)
      (by decide)]
  show ([] ++ (hmacDRBG_generate Hff stDefault.drbg 8).1) = _
  rw [generate_eq_spec Hff (fun k v => by simp [Hff]) stDefault.drbg 8]
  simp [drbg_generate_spec, iterV, Hff, List.take_replicate]

theorem floatDiv_max : floatDivPow64 (2 ^ 64 - 1) = 1 := by
  have he : Nat.log2 (2 ^ 64 - 1) = 63 := by
    rw [Nat.log2_eq_log_two]
    exact Nat.log_eq_of_pow_le_of_lt_pow (by norm_num) (by norm_num)
  simp only [floatDivPow64, he]
  rw [if_neg (by norm_num), if_neg (by norm_num)]
  rw [show roundHalfEven (2 ^ 64 - 1) (2 ^ (63 - 52)) = 2 ^ 53 from by decide]
  norm_num

/-! ## Claim C8 -/

/-- Claim C8 is a code bug: `random()` is `random_u64() / 2**64` in
IEEE-754 binary64 arithmetic, and when the eight DRBG output bytes are
all `0xFF` (`random_u64() = 2^64 - 1`) the correctly rounded quotient is
exactly `1.0`, outside the documented `[0, 1)` — even though the exact
value `(2^64 - 1) / 2^64` is below 1. -/
theorem C8_random_float_bug :
    (VQRTurnRNG_random Hff collect0 stDefault).1 = 1
    ∧ ((2 ^ 64 - 1 : ℚ) / 2 ^ 64 < 1) := by
  constructor
  · show floatDivPow64
      (beUnpackQ (VQRTurnRNG_random_bytes Hff collect0 stDefault 8).1) = 1
    rw [Hff_random_bytes8,
      show beUnpackQ (List.replicate 8 255) = 2 ^ 64 - 1 from by decide]
    exact floatDiv_max
  · norm_num

/-! ## Claim C1 -/

/-- Claim C1 is a code bug: `__init__` runs `_collect_entropy()` before
assigning `self.bytes_generated`, and `_collect_entropy` reads that
attribute to build its freshness tag, so construction raises
`AttributeError` on every call — even when the OS entropy source is
fully available (every `os.urandom` read succeeds). -/
theorem C1_init_always_fails (H : HmacF) (sha3 : Bytes → Bytes)
    (urandom : Nat → Option Bytes) (delta : Nat → Nat)
    (time_ns reseed_interval_bytes : Nat)
    (hok : ∀ i, (urandom i).isSome = true) :
    VQRTurnRNG_init H sha3 urandom delta time_ns reseed_interval_bytes
      = Except.error PyError.attributeError := by
  obtain ⟨e1, he1⟩ := Option.isSome_iff_exists.mp (hok 0)
  obtain ⟨e3, he3⟩ := Option.isSome_iff_exists.mp (hok 1)
  rw [VQRTurnRNG_init, collect_entropy, he1]
  by_cases hhc : (health_checks (e1 ++ timing_jitter_bytes sha3 delta 64)).1
  · simp [hhc]
  · simp [hhc, he3]

/-- Witness for C1: a concrete construction attempt with a fully
available OS source still fails with the attribute error. -/
theorem C1_witness :
    VQRTurnRNG_init Hconst sha3c urandomOk delta0 0 16
      = Except.error PyError.attributeError :=
  C1_init_always_fails Hconst sha3c urandomOk delta0 0 16 (fun _ => rfl)

/-! ## Extra witnesses for the unconditional claims -/

/-- Witness for C4 at a concrete instance. -/
theorem C4_witness :
    (VQRTurnRNG_random_bytes Hconst collect0 stDefault 20).1.length = 20 :=
  C4_random_bytes_length Hconst collect0 stDefault 20

/-- Witness for C10 at a concrete instance whose counter has already
reached the threshold. -/
theorem C10_witness :
    VQRTurnRNG_random_bytes Hconst collect0 ⟨16, drbg0, 16, 3⟩ 0
      = ([], ⟨16, drbg0, 16, 3⟩) :=
  C10_random_bytes_zero Hconst collect0 ⟨16, drbg0, 16, 3⟩

end EGQCC
